import Mathlib

/-!
Verification of the version-selection core of `latest-pythons.py`.

The Python functions `parse_asdf_output`, `is_valid_version` and
`get_latest_asdf_versions` are shallowly embedded below.  Python strings are
modelled as lists of characters; `asdf` listing text is ASCII, so the
character predicates (`str.isdigit`, `str.strip`) are modelled on the ASCII
range.  Python exceptions (`ValueError` from `int`, `IndexError` from list
indexing, `ValueError` from `max()` on an empty sequence) are made explicit
with `Except`, so the totality of the embedded function is a theorem rather
than an artefact of the embedding.  Python's `list.sort` / `sorted` are
modelled with `List.insertionSort` under the corresponding total preorder:
both are stable, and on the lists sorted here equal keys are identical
elements, so the result list is the same.
-/

namespace LatestPythons

/-- Python text modelled as a list of characters. -/
abbrev PyStr := List Char

/-- Python's `str.isdigit` for a single character, on the ASCII range:
true exactly on the decimal digits 0-9. -/
def pyIsDigit (c : Char) : Bool := '0' ≤ c && c ≤ '9'

/-- The ASCII whitespace characters removed by Python's `str.strip()`. -/
def pyIsSpace (c : Char) : Bool :=
  c = ' ' || c = '\t' || c = '\n' || c = '\r' || c = '\x0b' || c = '\x0c'

/-- Python's `str.strip()`: remove leading and trailing whitespace. -/
def pystrip (l : PyStr) : PyStr :=
  ((l.dropWhile pyIsSpace).reverse.dropWhile pyIsSpace).reverse

/-- Python's `str.split(sep)` for a one-character separator: empty fields are
kept, so splitting the empty string gives one empty field and consecutive
separators produce empty fields. -/
def splitOnChar (sep : Char) : PyStr → List PyStr
  | [] => [[]]
  | c :: cs =>
    match splitOnChar sep cs with
    | [] => [[]]
    | r :: rs => if c = sep then [] :: r :: rs else (c :: r) :: rs

/-- Python's `v.startswith("3.")`. -/
def startsWith3 (v : PyStr) : Bool :=
  match v with
  | '3' :: '.' :: _ => true
  | _ => false

/-- Python's `str.isdigit` on a whole string: nonempty and all digits. -/
def pyStrIsdigit (p : PyStr) : Bool := !p.isEmpty && p.all pyIsDigit

/-- A line of `asdf list all python` output as considered by
`parse_asdf_output`: the stripped line when it is nonempty and starts with a
digit, otherwise nothing. -/
def candOf (line : PyStr) : Option PyStr :=
  match pystrip line with
  | [] => none
  | c :: cs => if pyIsDigit c then some (c :: cs) else none

/-- `parse_asdf_output` (latest-pythons.py, lines 77-89): split on newlines,
strip each line, keep the nonempty stripped lines whose first character is a
digit. -/
def parse_asdf_output (output : PyStr) : List PyStr :=
  (splitOnChar '\n' output).filterMap candOf

/-- `is_valid_version` (lines 91-102): split on dots; valid iff there are
exactly three parts and each part is a nonempty digit string. -/
def is_valid_version (version : PyStr) : Bool :=
  let parts := splitOnChar '.' version
  parts.length == 3 && parts.all pyStrIsdigit

/-- The numeric value Python's `int` computes for a decimal digit string. -/
def pyIntVal (l : PyStr) : Nat :=
  l.foldl (fun acc c => acc * 10 + (c.toNat - 48)) 0

/-- Python's `int(s)`: succeeds on nonempty digit strings (the only strings
this program feeds to `int`), raises `ValueError` otherwise. -/
def pyInt (s : PyStr) : Except String Nat :=
  if !s.isEmpty && s.all pyIsDigit then .ok (pyIntVal s) else .error "ValueError"

/-- Python list indexing, raising `IndexError` when out of range. -/
def pyIdx {α : Type _} (l : List α) (i : Nat) : Except String α :=
  match l[i]? with
  | some a => .ok a
  | none => .error "IndexError"

/-- Python's `max` over a list of ints, raising on the empty sequence. -/
def pyMax : List Nat → Except String Nat
  | [] => .error "ValueError"
  | a :: t => .ok (t.foldl Nat.max a)

instance exceptDecEq {ε α : Type _} [DecidableEq ε] [DecidableEq α] :
    DecidableEq (Except ε α) := fun a b =>
  match a, b with
  | .ok x, .ok y =>
    if h : x = y then .isTrue (by rw [h])
    else .isFalse (fun hc => by cases hc; exact h rfl)
  | .error e, .error f =>
    if h : e = f then .isTrue (by rw [h])
    else .isFalse (fun hc => by cases hc; exact h rfl)
  | .ok _, .error _ => .isFalse (fun hc => by cases hc)
  | .error _, .ok _ => .isFalse (fun hc => by cases hc)

/-- Left-to-right effectful map: a Python loop or comprehension whose body
may raise. -/
def mapME {α β : Type _} (f : α → Except String β) : List α → Except String (List β)
  | [] => .ok []
  | a :: t => do
    let b ← f a
    let r ← mapME f t
    return b :: r

/-- The decimal digit characters produced by Python's string formatting
(only ever applied to values below ten). -/
def digitC : Nat → Char
  | 0 => '0'
  | 1 => '1'
  | 2 => '2'
  | 3 => '3'
  | 4 => '4'
  | 5 => '5'
  | 6 => '6'
  | 7 => '7'
  | 8 => '8'
  | _ => '9'

/-- Fuelled decimal rendering of a natural number. -/
def natDigitsF : Nat → Nat → List Char
  | 0, _ => []
  | fuel + 1, n =>
    if n < 10 then [digitC n] else natDigitsF fuel (n / 10) ++ [digitC (n % 10)]

/-- Decimal rendering of a natural number, as Python interpolates an int into
a string: most significant digit first, no leading zeros, no sign. -/
def natDigits (n : Nat) : List Char := natDigitsF (n + 1) n

/-- Python's formatted string building the text 3.minor.patch from the two
integers. -/
def fstr3 (minor patch : Nat) : PyStr :=
  '3' :: '.' :: (natDigits minor ++ '.' :: natDigits patch)

/-- Descending lexicographic order on (minor, patch) integer pairs: the order
`minor_patch_versions.sort(reverse=True)` produces on tuples of ints. -/
def pairGe (a b : Nat × Nat) : Prop := b.1 < a.1 ∨ (a.1 = b.1 ∧ b.2 ≤ a.2)

instance : DecidableRel pairGe := fun a b =>
  decidable_of_iff (b.1 < a.1 ∨ (a.1 = b.1 ∧ b.2 ≤ a.2)) Iff.rfl

instance : IsTotal (Nat × Nat) pairGe := ⟨fun a b => by unfold pairGe; omega⟩

instance : IsTrans (Nat × Nat) pairGe := ⟨fun a b c h1 h2 => by
  unfold pairGe at h1 h2 ⊢; omega⟩

instance : IsAntisymm (Nat × Nat) pairGe := ⟨fun a b h1 h2 => by
  unfold pairGe at h1 h2
  have hab : a.1 = b.1 ∧ a.2 = b.2 := by omega
  exact Prod.ext hab.1 hab.2⟩

/-- Python string comparison `a <= b`: lexicographic by code point, a proper
prefix compares below. -/
def strLe : PyStr → PyStr → Bool
  | [], _ => true
  | _ :: _, [] => false
  | x :: xs, y :: ys =>
    if x.toNat < y.toNat then true
    else if y.toNat < x.toNat then false
    else strLe xs ys

/-- The descending string order used by `sorted(selected_versions,
reverse=True)`. -/
def strDescR (a b : PyStr) : Prop := strLe b a = true

instance : DecidableRel strDescR := fun a b =>
  decidable_of_iff (strLe b a = true) Iff.rfl

/-- The first loop of `get_latest_asdf_versions` (lines 119-123): walk the
descending-sorted pairs, collecting distinct minors, stopping once `count`
have been collected.  The Python `set` is modelled as a list in first-insertion
order; only its membership is observable, since the final result is sorted. -/
def collectMinors (count : Nat) : List (Nat × Nat) → List Nat → List Nat
  | [], acc => acc
  | (minor, _) :: rest, acc =>
    let acc' := if minor ∈ acc then acc else acc ++ [minor]
    if acc'.length = count then acc' else collectMinors count rest acc'

/-- `get_latest_asdf_versions` (lines 104-130), with Python's latent
exceptions explicit in `Except`. -/
def get_latest_asdf_versions (output : PyStr) (count : Nat) :
    Except String (List PyStr) := do
  let valid_versions := (parse_asdf_output output).filter
      (fun v => startsWith3 v && is_valid_version v)
  let minor_patch_versions ← mapME (fun v => do
      let s1 ← pyIdx (splitOnChar '.' v) 1
      let m ← pyInt s1
      let s2 ← pyIdx (splitOnChar '.' v) 2
      let p ← pyInt s2
      return (m, p)) valid_versions
  let sortedPairs := List.insertionSort pairGe minor_patch_versions
  let latest_minors := collectMinors count sortedPairs []
  let selected_versions ← mapME (fun minor => do
      let highest_patch ←
        pyMax ((sortedPairs.filter (fun mp => mp.1 == minor)).map (fun mp => mp.2))
      return fstr3 minor highest_patch) latest_minors
  return List.insertionSort strDescR selected_versions

/-- The version strings `get_latest_asdf_versions` keeps: candidate lines
that start with 3. and are well formed. -/
def validVersions (output : PyStr) : List PyStr :=
  (parse_asdf_output output).filter (fun v => startsWith3 v && is_valid_version v)

/-- The (minor, patch) integers of a well-formed version string. -/
def pairOf (v : PyStr) : Nat × Nat :=
  (pyIntVal ((splitOnChar '.' v).getD 1 []), pyIntVal ((splitOnChar '.' v).getD 2 []))

/-- The (minor, patch) pairs of all eligible input versions. -/
def eligiblePairs (output : PyStr) : List (Nat × Nat) :=
  (validVersions output).map pairOf

/-- The maximum of a list of naturals (0 for the empty list, which Python's
`max` rejects; the program only takes maxima of nonempty groups). -/
def listMax : List Nat → Nat
  | [] => 0
  | a :: t => t.foldl Nat.max a

/-- The highest patch among the pairs with the given minor (the value of
Python's `max(patch for m, patch in minor_patch_versions if m == minor)` when
the group is nonempty). -/
def maxPatch (pairs : List (Nat × Nat)) (minor : Nat) : Nat :=
  listMax ((pairs.filter (fun mp => mp.1 == minor)).map (fun mp => mp.2))

/-- The pure value `get_latest_asdf_versions` always succeeds with. -/
def pipeline (output : PyStr) (count : Nat) : List PyStr :=
  let sortedPairs := List.insertionSort pairGe (eligiblePairs output)
  let latest_minors := collectMinors count sortedPairs []
  List.insertionSort strDescR
    (latest_minors.map (fun minor => fstr3 minor (maxPatch sortedPairs minor)))

/-- The minor component of a version string, read as an integer. -/
def minorNatOf (s : PyStr) : Nat := pyIntVal ((splitOnChar '.' s).getD 1 [])

/-- The patch component of a version string, read as an integer. -/
def patchNatOf (s : PyStr) : Nat := pyIntVal ((splitOnChar '.' s).getD 2 [])

/-- Rebuild a text blob from its lines (inverse of splitting on newline for
lines that contain no newline). -/
def joinLines : List PyStr → PyStr
  | [] => []
  | [l] => l
  | l :: l2 :: ls => l ++ '\n' :: joinLines (l2 :: ls)

/-- The version a single input line contributes, if any. -/
def lineVersion (line : PyStr) : Option PyStr :=
  (candOf line).filter (fun v => startsWith3 v && is_valid_version v)

/-- The (minor, patch) pair a single input line contributes, if any. -/
def linePair (line : PyStr) : Option (Nat × Nat) :=
  (lineVersion line).map pairOf

/-! ### Lemmas about splitting -/

theorem splitOnChar_cons (sep c : Char) (cs : PyStr) :
    splitOnChar sep (c :: cs) =
      match splitOnChar sep cs with
      | [] => [[]]
      | r :: rs => if c = sep then [] :: r :: rs else (c :: r) :: rs := rfl

theorem splitOnChar_ne_nil (sep : Char) (l : PyStr) : splitOnChar sep l ≠ [] := by
  induction l with
  | nil => simp [splitOnChar]
  | cons c cs ih =>
    rw [splitOnChar_cons]
    cases hsplit : splitOnChar sep cs with
    | nil => simp
    | cons r rs => dsimp only; split <;> simp

theorem splitOnChar_of_not_mem {sep : Char} {l : PyStr} (h : sep ∉ l) :
    splitOnChar sep l = [l] := by
  induction l with
  | nil => rfl
  | cons c cs ih =>
    have hx : ¬c = sep := fun hc => h (hc ▸ List.mem_cons_self _ _)
    rw [splitOnChar_cons, ih (fun hc => h (List.mem_cons_of_mem _ hc))]
    simp [hx]

theorem splitOnChar_append {sep : Char} {xs : PyStr} (rest : PyStr) (h : sep ∉ xs) :
    splitOnChar sep (xs ++ sep :: rest) = xs :: splitOnChar sep rest := by
  induction xs with
  | nil =>
    rw [List.nil_append, splitOnChar_cons]
    cases hsplit : splitOnChar sep rest with
    | nil => exact absurd hsplit (splitOnChar_ne_nil sep rest)
    | cons r rs => simp
  | cons x xs ih =>
    have hx : ¬x = sep := fun hc => h (hc ▸ List.mem_cons_self _ _)
    have hxs : sep ∉ xs := fun hc => h (List.mem_cons_of_mem _ hc)
    rw [List.cons_append, splitOnChar_cons, ih hxs]
    simp [hx]

/-! ### Lemmas about decimal rendering -/

theorem natDigitsF_fuel {n f1 f2 : Nat} (h1 : n < f1) (h2 : n < f2) :
    natDigitsF f1 n = natDigitsF f2 n := by
  induction n using Nat.strong_induction_on generalizing f1 f2 with
  | _ n ih =>
    cases f1 with
    | zero => omega
    | succ g1 =>
      cases f2 with
      | zero => omega
      | succ g2 =>
        unfold natDigitsF
        by_cases h : n < 10
        · rw [if_pos h, if_pos h]
        · rw [if_neg h, if_neg h]
          congr 1
          have hd : n / 10 < n := Nat.div_lt_self (by omega) (by omega)
          exact ih (n / 10) hd (by omega) (by omega)

theorem natDigits_lt {n : Nat} (h : n < 10) : natDigits n = [digitC n] := by
  unfold natDigits natDigitsF
  rw [if_pos h]

theorem natDigits_ge {n : Nat} (h : 10 ≤ n) :
    natDigits n = natDigits (n / 10) ++ [digitC (n % 10)] := by
  conv_lhs => unfold natDigits natDigitsF
  rw [if_neg (by omega)]
  unfold natDigits
  congr 1
  have hd : n / 10 < n := Nat.div_lt_self (by omega) (by omega)
  exact natDigitsF_fuel (by omega) (by omega)

theorem digitC_isDigit (k : Nat) : pyIsDigit (digitC k) = true := by
  unfold digitC
  split <;> rfl

theorem digitC_toNat {k : Nat} (h : k < 10) : (digitC k).toNat = 48 + k := by
  interval_cases k <;> rfl

theorem natDigits_ne_nil (n : Nat) : natDigits n ≠ [] := by
  by_cases h : n < 10
  · rw [natDigits_lt h]; simp
  · rw [natDigits_ge (by omega)]; simp

theorem natDigits_all_digits (n : Nat) : ∀ c ∈ natDigits n, pyIsDigit c = true := by
  induction n using Nat.strong_induction_on with
  | _ n ih =>
    by_cases h : n < 10
    · rw [natDigits_lt h]
      intro c hc
      rw [List.mem_singleton] at hc
      rw [hc]; exact digitC_isDigit n
    · rw [natDigits_ge (by omega)]
      intro c hc
      rcases List.mem_append.mp hc with hc | hc
      · exact ih (n / 10) (Nat.div_lt_self (by omega) (by omega)) c hc
      · rw [List.mem_singleton] at hc
        rw [hc]; exact digitC_isDigit (n % 10)

theorem dot_not_mem_natDigits (n : Nat) : '.' ∉ natDigits n := by
  intro hc
  have := natDigits_all_digits n '.' hc
  simp [pyIsDigit] at this

theorem pyIntVal_append_one (l : PyStr) (c : Char) :
    pyIntVal (l ++ [c]) = pyIntVal l * 10 + (c.toNat - 48) := by
  simp [pyIntVal, List.foldl_append]

theorem pyIntVal_natDigits (n : Nat) : pyIntVal (natDigits n) = n := by
  induction n using Nat.strong_induction_on with
  | _ n ih =>
    by_cases h : n < 10
    · rw [natDigits_lt h]
      simp [pyIntVal, digitC_toNat h]
    · rw [natDigits_ge (by omega), pyIntVal_append_one,
        ih (n / 10) (Nat.div_lt_self (by omega) (by omega)),
        digitC_toNat (Nat.mod_lt n (by omega))]
      omega

theorem natDigits_head_ne_zero {n : Nat} (h : 1 ≤ n) :
    (natDigits n).head? ≠ some '0' := by
  induction n using Nat.strong_induction_on with
  | _ n ih =>
    by_cases hn : n < 10
    · rw [natDigits_lt hn]
      interval_cases n <;> decide
    · rw [natDigits_ge (by omega)]
      obtain ⟨a, t, ht⟩ := List.exists_cons_of_ne_nil (natDigits_ne_nil (n / 10))
      have hh : (natDigits (n / 10)).head? ≠ some '0' := by
        apply ih (n / 10) (Nat.div_lt_self (by omega) (by omega))
        omega
      rw [ht] at hh ⊢
      simpa using hh

/-! ### The string order -/

theorem strLe_cons (x y : Char) (xs ys : PyStr) :
    strLe (x :: xs) (y :: ys) =
      if x.toNat < y.toNat then true
      else if y.toNat < x.toNat then false
      else strLe xs ys := rfl

theorem strLe_total (a b : PyStr) : strLe a b = true ∨ strLe b a = true := by
  induction a generalizing b with
  | nil => left; rfl
  | cons x xs ih =>
    cases b with
    | nil => right; rfl
    | cons y ys =>
      rw [strLe_cons, strLe_cons]
      rcases Nat.lt_trichotomy x.toNat y.toNat with h | h | h
      · left; rw [if_pos h]
      · rw [if_neg (by omega), if_neg (by omega), if_neg (by omega), if_neg (by omega)]
        exact ih ys
      · right; rw [if_pos h]

theorem strLe_trans {a b c : PyStr} (h1 : strLe a b = true) (h2 : strLe b c = true) :
    strLe a c = true := by
  induction a generalizing b c with
  | nil => rfl
  | cons x xs ih =>
    cases b with
    | nil => exact absurd h1 (by simp [strLe])
    | cons y ys =>
      cases c with
      | nil => exact absurd h2 (by simp [strLe])
      | cons z zs =>
        rw [strLe_cons] at h1 h2 ⊢
        split_ifs at h1 h2 ⊢ <;>
          first
            | rfl
            | omega
            | exact absurd h1 Bool.false_ne_true
            | exact absurd h2 Bool.false_ne_true
            | exact ih h1 h2

instance : IsTotal PyStr strDescR :=
  ⟨fun a b => (strLe_total b a).imp id id⟩

instance : IsTrans PyStr strDescR :=
  ⟨fun _ _ _ h1 h2 => strLe_trans h2 h1⟩

/-! ### Effectful maps, maxima -/

theorem mapME_ok {α β : Type _} (f : α → Except String β) (g : α → β) :
    ∀ l : List α, (∀ a ∈ l, f a = .ok (g a)) → mapME f l = .ok (l.map g)
  | [], _ => rfl
  | a :: t, h => by
    simp only [mapME]
    rw [h a (List.mem_cons_self a t),
      mapME_ok f g t (fun x hx => h x (List.mem_cons_of_mem _ hx))]
    rfl

theorem foldl_max_spec (t : List Nat) (a : Nat) :
    t.foldl Nat.max a ∈ a :: t ∧ ∀ y ∈ a :: t, y ≤ t.foldl Nat.max a := by
  induction t generalizing a with
  | nil =>
    refine ⟨List.mem_cons_self _ _, ?_⟩
    intro y hy
    rcases List.mem_cons.mp hy with rfl | hy
    · exact le_refl _
    · exact absurd hy (List.not_mem_nil y)
  | cons b t' ih =>
    rw [List.foldl_cons]
    obtain ⟨hmem, hub⟩ := ih (Nat.max a b)
    have hchoice : Nat.max a b = a ∨ Nat.max a b = b := by
      rcases Nat.le_total a b with hab | hab
      · exact .inr (Nat.max_eq_right hab)
      · exact .inl (Nat.max_eq_left hab)
    refine ⟨?_, ?_⟩
    · rcases List.mem_cons.mp hmem with heq | hm
      · rcases hchoice with hc | hc
        · rw [heq, hc]; exact List.mem_cons_self _ _
        · rw [heq, hc]; exact List.mem_cons_of_mem _ (List.mem_cons_self _ _)
      · exact List.mem_cons_of_mem _ (List.mem_cons_of_mem _ hm)
    · intro y hy
      rcases List.mem_cons.mp hy with rfl | hy
      · exact le_trans (Nat.le_max_left _ _) (hub _ (List.mem_cons_self _ _))
      · rcases List.mem_cons.mp hy with rfl | hy
        · exact le_trans (Nat.le_max_right _ _) (hub _ (List.mem_cons_self _ _))
        · exact hub _ (List.mem_cons_of_mem _ hy)

theorem listMax_spec {l : List Nat} (h : l ≠ []) :
    listMax l ∈ l ∧ ∀ y ∈ l, y ≤ listMax l := by
  cases l with
  | nil => exact absurd rfl h
  | cons a t => exact foldl_max_spec t a

theorem listMax_congr {l1 l2 : List Nat} (h1 : l1 ≠ []) (h2 : l2 ≠ [])
    (h : ∀ x, x ∈ l1 ↔ x ∈ l2) : listMax l1 = listMax l2 := by
  obtain ⟨hm1, hu1⟩ := listMax_spec h1
  obtain ⟨hm2, hu2⟩ := listMax_spec h2
  exact Nat.le_antisymm (hu2 _ ((h _).mp hm1)) (hu1 _ ((h _).mpr hm2))

theorem pyMax_ok {l : List Nat} (h : l ≠ []) : pyMax l = .ok (listMax l) := by
  cases l with
  | nil => exact absurd rfl h
  | cons a t => rfl

/-! ### Structure of valid versions -/

theorem is_valid_version_parts {v : PyStr} (h : is_valid_version v = true) :
    ∃ p0 p1 p2, splitOnChar '.' v = [p0, p1, p2] ∧
      pyStrIsdigit p0 = true ∧ pyStrIsdigit p1 = true ∧ pyStrIsdigit p2 = true := by
  simp only [is_valid_version, Bool.and_eq_true, beq_iff_eq, List.all_eq_true] at h
  obtain ⟨hlen, hall⟩ := h
  obtain ⟨p0, p1, p2, hs⟩ := List.length_eq_three.mp hlen
  rw [hs] at hall
  exact ⟨p0, p1, p2, hs, hall p0 (by simp), hall p1 (by simp), hall p2 (by simp)⟩

theorem except_bind_ok {α β : Type _} (x : α) (k : α → Except String β) :
    (Except.ok x : Except String α) >>= k = k x := rfl

theorem version_step {v : PyStr} (h : is_valid_version v = true) :
    (do
      let s1 ← pyIdx (splitOnChar '.' v) 1
      let m ← pyInt s1
      let s2 ← pyIdx (splitOnChar '.' v) 2
      let p ← pyInt s2
      return (m, p) : Except String (Nat × Nat)) = .ok (pairOf v) := by
  obtain ⟨p0, p1, p2, hs, _, h1, h2⟩ := is_valid_version_parts h
  unfold pyStrIsdigit at h1 h2
  simp only [Bool.and_eq_true, Bool.not_eq_true', List.isEmpty_eq_false,
    List.all_eq_true] at h1 h2
  simp [pyIdx, pyInt, pairOf, hs, h1, h2, except_bind_ok, Except.map]
  simp [except_bind_ok, if_pos h1.2, if_pos h2.2, Except.map]

theorem collectMinors_mem {count : Nat} :
    ∀ {l : List (Nat × Nat)} {acc : List Nat} {m : Nat},
      m ∈ collectMinors count l acc → m ∈ acc ∨ m ∈ l.map Prod.fst
  | [], _, m, h => .inl h
  | (minor, p) :: rest, acc, m, h => by
    rw [collectMinors] at h
    set acc' := if minor ∈ acc then acc else acc ++ [minor] with hacc'
    have hsub : m ∈ acc' → m ∈ acc ∨ m = minor := by
      intro hm
      rw [hacc'] at hm
      split at hm
      · exact .inl hm
      · rcases List.mem_append.mp hm with hm | hm
        · exact .inl hm
        · exact .inr (List.mem_singleton.mp hm)
    split at h
    · rcases hsub h with hm | hm
      · exact .inl hm
      · exact .inr (by simp [hm])
    · rcases collectMinors_mem h with hm | hm
      · rcases hsub hm with hm' | hm'
        · exact .inl hm'
        · exact .inr (by simp [hm'])
      · exact .inr (List.mem_cons_of_mem _ hm)

/-! ### The program always succeeds and computes `pipeline` -/

theorem selection_step (pairs : List (Nat × Nat)) (count : Nat) :
    mapME (fun minor => do
        let highest_patch ←
          pyMax (((List.insertionSort pairGe pairs).filter
            (fun mp => mp.1 == minor)).map (fun mp => mp.2))
        return fstr3 minor highest_patch)
      (collectMinors count (List.insertionSort pairGe pairs) []) =
    .ok ((collectMinors count (List.insertionSort pairGe pairs) []).map
      (fun minor => fstr3 minor (maxPatch (List.insertionSort pairGe pairs) minor))) := by
  apply mapME_ok
  intro minor hm
  rcases collectMinors_mem hm with hm' | hm'
  · exact absurd hm' (List.not_mem_nil minor)
  · obtain ⟨q, hq, hqm⟩ := List.mem_map.mp hm'
    have hne : ((List.insertionSort pairGe pairs).filter
        (fun mp => mp.1 == minor)).map (fun mp => mp.2) ≠ [] := by
      have hqf : q ∈ (List.insertionSort pairGe pairs).filter
          (fun mp => mp.1 == minor) :=
        List.mem_filter.mpr ⟨hq, by simp [hqm]⟩
      intro hc
      rw [List.map_eq_nil_iff] at hc
      rw [hc] at hqf
      exact List.not_mem_nil q hqf
    simp only [except_bind_ok, pyMax_ok hne]
    rfl

theorem get_latest_eq_pipeline (output : PyStr) (count : Nat) :
    get_latest_asdf_versions output count = .ok (pipeline output count) := by
  have hver : ∀ v ∈ (parse_asdf_output output).filter
      (fun v => startsWith3 v && is_valid_version v),
      (do
        let s1 ← pyIdx (splitOnChar '.' v) 1
        let m ← pyInt s1
        let s2 ← pyIdx (splitOnChar '.' v) 2
        let p ← pyInt s2
        return (m, p) : Except String (Nat × Nat)) = .ok (pairOf v) := by
    intro v hv
    have hvv := (List.mem_filter.mp hv).2
    simp only [Bool.and_eq_true] at hvv
    exact version_step hvv.2
  unfold get_latest_asdf_versions pipeline eligiblePairs validVersions
  dsimp only
  rw [mapME_ok _ pairOf _ hver, except_bind_ok, selection_step, except_bind_ok]
  rfl

/-! ### Adjacent deduplication, and what the minor-collecting loop computes -/

/-- Remove adjacent duplicates: on a descending-sorted list this enumerates
the distinct values in order. -/
def dedupAdj : List Nat → List Nat
  | [] => []
  | [a] => [a]
  | a :: b :: t => if a = b then dedupAdj (b :: t) else a :: dedupAdj (b :: t)

theorem dedupAdj_cons2 (a b : Nat) (t : List Nat) :
    dedupAdj (a :: b :: t) =
      if a = b then dedupAdj (b :: t) else a :: dedupAdj (b :: t) := rfl

theorem dedupAdj_mem : ∀ (l : List Nat) (x : Nat), x ∈ dedupAdj l ↔ x ∈ l
  | [], x => by simp [dedupAdj]
  | [a], x => by simp [dedupAdj]
  | a :: b :: t, x => by
    rw [dedupAdj_cons2]
    split
    · next h =>
      rw [dedupAdj_mem (b :: t) x]
      subst h
      simp [List.mem_cons]
    · simp [List.mem_cons, dedupAdj_mem (b :: t) x]

theorem dedupAdj_sorted : ∀ {l : List Nat},
    List.Pairwise (fun a b => b ≤ a) l →
    List.Pairwise (fun a b => b < a) (dedupAdj l)
  | [], _ => by simp [dedupAdj]
  | [a], _ => by simp [dedupAdj]
  | a :: b :: t, h => by
    obtain ⟨h1, h2⟩ := List.pairwise_cons.mp h
    rw [dedupAdj_cons2]
    split
    · exact dedupAdj_sorted h2
    · next hne =>
      rw [List.pairwise_cons]
      refine ⟨?_, dedupAdj_sorted h2⟩
      intro y hy
      have hy' : y ∈ b :: t := (dedupAdj_mem _ y).mp hy
      rcases List.mem_cons.mp hy' with rfl | hyt
      · have := h1 y (List.mem_cons_self _ _)
        omega
      · have hyb := (List.pairwise_cons.mp h2).1 y hyt
        have hba := h1 b (List.mem_cons_self _ _)
        have : ¬a = b := hne
        omega

theorem dedupAdj_cons_head : ∀ (a : Nat) (l : List Nat),
    ∃ t, dedupAdj (a :: l) = a :: t
  | _, [] => ⟨[], rfl⟩
  | a, b :: t => by
    rw [dedupAdj_cons2]
    split
    · next h => subst h; exact dedupAdj_cons_head a t
    · exact ⟨_, rfl⟩

theorem dedupAdj_nodup {l : List Nat}
    (h : List.Pairwise (fun a b => b ≤ a) l) : (dedupAdj l).Nodup :=
  (dedupAdj_sorted h).imp (fun hab => by omega)

/-- Pull the head of a descending list out of `dedupAdj`, removing its later
duplicates. -/
theorem dedupAdj_cons_filter {m : Nat} : ∀ {l : List Nat},
    List.Pairwise (fun a b => b ≤ a) l → (∀ y ∈ l, y ≤ m) →
    dedupAdj (m :: l) = m :: dedupAdj (l.filter (fun y => decide (¬y = m)))
  | [], _, _ => rfl
  | a :: t, hs, hle => by
    obtain ⟨h1, h2⟩ := List.pairwise_cons.mp hs
    by_cases ham : a = m
    · subst ham
      rw [dedupAdj_cons2, if_pos rfl]
      rw [dedupAdj_cons_filter h2 (fun y hy => hle y (List.mem_cons_of_mem _ hy))]
      simp [List.filter_cons]
    · have ham' : ¬m = a := fun hc => ham hc.symm
      rw [dedupAdj_cons2, if_neg ham']
      have hta : t.filter (fun y => decide (¬y = m)) = t := by
        rw [List.filter_eq_self]
        intro y hy
        have hya := h1 y hy
        have haM := hle a (List.mem_cons_self _ _)
        simp
        omega
      rw [List.filter_cons, if_pos (by simp [ham]), hta]

/-- What the loop at lines 119-123 computes: walking a descending-sorted pair
list from an accumulator that dominates it collects, in order, the first
distinct minors not yet present, up to `count` in total. -/
theorem collectMinors_closed {count : Nat} : ∀ {l : List (Nat × Nat)} {acc : List Nat},
    List.Pairwise (fun a b => b.1 ≤ a.1) l →
    acc.length < count →
    (∀ a ∈ acc, ∀ q ∈ l, q.1 ≤ a) →
    collectMinors count l acc =
      acc ++ (dedupAdj ((l.map Prod.fst).filter
        (fun y => decide (y ∉ acc)))).take (count - acc.length)
  | [], acc, _, _, _ => by simp [collectMinors, dedupAdj]
  | (m, p) :: rest, acc, hs, hlen, hdom => by
    obtain ⟨h1, h2⟩ := List.pairwise_cons.mp hs
    simp only [List.map_cons]
    by_cases hm : m ∈ acc
    · have hunfold : collectMinors count ((m, p) :: rest) acc =
          if acc.length = count then acc else collectMinors count rest acc := by
        rw [collectMinors]
        simp only [if_pos hm]
      have hfc : (m :: rest.map Prod.fst).filter (fun y => decide (y ∉ acc)) =
          (rest.map Prod.fst).filter (fun y => decide (y ∉ acc)) := by
        simp [List.filter_cons, hm]
      rw [hunfold, if_neg (by omega), hfc]
      exact collectMinors_closed h2 hlen
        (fun a ha q hq => hdom a ha q (List.mem_cons_of_mem _ hq))
    · have hunfold : collectMinors count ((m, p) :: rest) acc =
          if (acc ++ [m]).length = count then acc ++ [m]
          else collectMinors count rest (acc ++ [m]) := by
        rw [collectMinors]
        simp only [if_neg hm]
      have hfc : (m :: rest.map Prod.fst).filter (fun y => decide (y ∉ acc)) =
          m :: (rest.map Prod.fst).filter (fun y => decide (y ∉ acc)) := by
        simp [List.filter_cons, hm]
      have hlen1 : (acc ++ [m]).length = acc.length + 1 := by simp
      have hrest_le : ∀ y ∈ (rest.map Prod.fst).filter (fun y => decide (y ∉ acc)), y ≤ m := by
        intro y hy
        obtain ⟨q, hq, hqy⟩ := List.mem_map.mp (List.mem_filter.mp hy).1
        exact hqy ▸ h1 q hq
      have hrest_sorted :
          List.Pairwise (fun a b => b ≤ a)
            ((rest.map Prod.fst).filter (fun y => decide (y ∉ acc))) :=
        (List.Pairwise.map Prod.fst (fun a b hab => hab)
          h2).filter (fun y => decide (y ∉ acc))
      rw [hunfold, hfc]
      by_cases hstop : acc.length + 1 = count
      · rw [if_pos (by rw [hlen1]; exact hstop)]
        obtain ⟨t, ht⟩ := dedupAdj_cons_head m
          ((rest.map Prod.fst).filter (fun y => decide (y ∉ acc)))
        rw [ht]
        have hco : count - acc.length = 1 := by omega
        rw [hco]
        simp
      · rw [if_neg (by rw [hlen1]; exact hstop)]
        rw [collectMinors_closed h2 (by rw [hlen1]; omega)
          (fun a ha q hq => by
            rcases List.mem_append.mp ha with ha | ha
            · exact hdom a ha q (List.mem_cons_of_mem _ hq)
            · rw [List.mem_singleton.mp ha]; exact h1 q hq)]
        rw [dedupAdj_cons_filter hrest_sorted hrest_le]
        have hfilter_eq :
            ((rest.map Prod.fst).filter (fun y => decide (y ∉ acc))).filter
              (fun y => decide (¬y = m)) =
            (rest.map Prod.fst).filter (fun y => decide (y ∉ acc ++ [m])) := by
          rw [List.filter_filter]
          apply List.filter_congr
          intro y hy
          simp [List.mem_append, not_or, And.comm]
        rw [hfilter_eq, hlen1]
        have hsucc : count - acc.length = (count - (acc.length + 1)) + 1 := by omega
        rw [hsucc, List.take_succ_cons]
        simp [List.append_assoc]

theorem sorted_pairs_fst (pairs : List (Nat × Nat)) :
    List.Pairwise (fun a b : Nat × Nat => b.1 ≤ a.1)
      (List.insertionSort pairGe pairs) :=
  (List.sorted_insertionSort pairGe pairs).imp
    (fun hab => by unfold pairGe at hab; omega)

theorem collectMinors_take {pairs : List (Nat × Nat)} {count : Nat} (hc : 0 < count) :
    collectMinors count (List.insertionSort pairGe pairs) [] =
      (dedupAdj ((List.insertionSort pairGe pairs).map Prod.fst)).take count := by
  rw [collectMinors_closed (sorted_pairs_fst pairs) (by simpa using hc)
    (fun a ha => absurd ha (List.not_mem_nil a))]
  have hfil : ((List.insertionSort pairGe pairs).map Prod.fst).filter
      (fun y => decide (y ∉ ([] : List Nat))) =
      (List.insertionSort pairGe pairs).map Prod.fst :=
    List.filter_eq_self.mpr (fun a _ => by simp)
  rw [hfil]
  simp

/-- Two strictly descending lists of naturals with the same members are
equal. -/
theorem strict_desc_eq {l1 l2 : List Nat}
    (s1 : List.Pairwise (fun a b => b < a) l1)
    (s2 : List.Pairwise (fun a b => b < a) l2)
    (h : ∀ x, x ∈ l1 ↔ x ∈ l2) : l1 = l2 := by
  haveI : IsAntisymm Nat (fun a b : Nat => b < a) := ⟨fun a b hab hba => by omega⟩
  exact List.eq_of_perm_of_sorted
    ((List.perm_ext_iff_of_nodup (s1.imp fun hab => by omega)
      (s2.imp fun hab => by omega)).mpr h) s1 s2

theorem mem_patches {s : List (Nat × Nat)} {m y : Nat} :
    y ∈ (s.filter (fun mp => mp.1 == m)).map (fun mp => mp.2) ↔
      ∃ q ∈ s, q.1 = m ∧ q.2 = y := by
  simp only [List.mem_map, List.mem_filter, beq_iff_eq]
  constructor
  · rintro ⟨q, ⟨hq, hqm⟩, hqy⟩
    exact ⟨q, hq, hqm, hqy⟩
  · rintro ⟨q, hq, hqm, hqy⟩
    exact ⟨q, ⟨hq, hqm⟩, hqy⟩

theorem patches_ne_nil {s : List (Nat × Nat)} {m : Nat} (h : ∃ q ∈ s, q.1 = m) :
    (s.filter (fun mp => mp.1 == m)).map (fun mp => mp.2) ≠ [] := by
  obtain ⟨q, hq, hqm⟩ := h
  exact List.ne_nil_of_mem (mem_patches.mpr ⟨q, hq, hqm, rfl⟩)

/-- The group maximum is attained by some pair of the group and bounds every
patch of the group. -/
theorem maxPatch_spec {s : List (Nat × Nat)} {m : Nat} (h : ∃ q ∈ s, q.1 = m) :
    (∃ q ∈ s, q.1 = m ∧ q.2 = maxPatch s m) ∧
      ∀ q ∈ s, q.1 = m → q.2 ≤ maxPatch s m := by
  obtain ⟨hmem, hub⟩ := listMax_spec (patches_ne_nil h)
  refine ⟨mem_patches.mp hmem, ?_⟩
  intro q hq hqm
  exact hub _ (mem_patches.mpr ⟨q, hq, hqm, rfl⟩)

theorem maxPatch_congr {s1 s2 : List (Nat × Nat)} {m : Nat}
    (hmem : ∀ q, q ∈ s1 ↔ q ∈ s2) (hne : ∃ q ∈ s1, q.1 = m) :
    maxPatch s1 m = maxPatch s2 m := by
  have hne2 : ∃ q ∈ s2, q.1 = m := by
    obtain ⟨q, hq, hqm⟩ := hne
    exact ⟨q, (hmem q).mp hq, hqm⟩
  unfold maxPatch
  apply listMax_congr (patches_ne_nil hne) (patches_ne_nil hne2)
  intro y
  rw [mem_patches, mem_patches]
  constructor
  · rintro ⟨q, hq, h1, h2⟩
    exact ⟨q, (hmem q).mp hq, h1, h2⟩
  · rintro ⟨q, hq, h1, h2⟩
    exact ⟨q, (hmem q).mpr hq, h1, h2⟩

/-- The selection pipeline depends only on which (minor, patch) pairs occur
among the eligible input versions, not on their order or multiplicity. -/
theorem pipeline_congr {o1 o2 : PyStr} {count : Nat} (hc : 0 < count)
    (h : ∀ q, q ∈ eligiblePairs o1 ↔ q ∈ eligiblePairs o2) :
    pipeline o1 count = pipeline o2 count := by
  unfold pipeline
  have hmem : ∀ q, q ∈ List.insertionSort pairGe (eligiblePairs o1) ↔
      q ∈ List.insertionSort pairGe (eligiblePairs o2) := by
    intro q
    rw [List.mem_insertionSort, List.mem_insertionSort]
    exact h q
  have hfst : ∀ y, y ∈ (List.insertionSort pairGe (eligiblePairs o1)).map Prod.fst ↔
      y ∈ (List.insertionSort pairGe (eligiblePairs o2)).map Prod.fst := by
    intro y
    simp only [List.mem_map]
    constructor
    · rintro ⟨q, hq, hqy⟩
      exact ⟨q, (hmem q).mp hq, hqy⟩
    · rintro ⟨q, hq, hqy⟩
      exact ⟨q, (hmem q).mpr hq, hqy⟩
  have hded : dedupAdj ((List.insertionSort pairGe (eligiblePairs o1)).map Prod.fst) =
      dedupAdj ((List.insertionSort pairGe (eligiblePairs o2)).map Prod.fst) :=
    strict_desc_eq (dedupAdj_sorted (List.Pairwise.map Prod.fst (fun _ _ hab => hab)
        (sorted_pairs_fst (eligiblePairs o1))))
      (dedupAdj_sorted (List.Pairwise.map Prod.fst (fun _ _ hab => hab)
        (sorted_pairs_fst (eligiblePairs o2))))
      (fun x => by rw [dedupAdj_mem, dedupAdj_mem]; exact hfst x)
  dsimp only
  rw [collectMinors_take hc, collectMinors_take hc, hded]
  congr 1
  apply List.map_congr_left
  intro m hm
  have hmL : m ∈ (List.insertionSort pairGe (eligiblePairs o1)).map Prod.fst := by
    have hmd : m ∈ dedupAdj ((List.insertionSort pairGe (eligiblePairs o2)).map Prod.fst) :=
      List.mem_of_mem_take hm
    exact (hfst m).mpr ((dedupAdj_mem _ m).mp hmd)
  obtain ⟨q, hq, hqm⟩ := List.mem_map.mp hmL
  rw [maxPatch_congr hmem ⟨q, hq, hqm⟩]

/-! ### Reading the components back out of an assembled version string -/

theorem splitOnChar_fstr3 (m p : Nat) :
    splitOnChar '.' (fstr3 m p) = [['3'], natDigits m, natDigits p] := by
  show splitOnChar '.' (['3'] ++ '.' :: (natDigits m ++ '.' :: natDigits p)) = _
  rw [splitOnChar_append _ (by simp),
    splitOnChar_append _ (dot_not_mem_natDigits m),
    splitOnChar_of_not_mem (dot_not_mem_natDigits p)]

theorem minorNatOf_fstr3 (m p : Nat) : minorNatOf (fstr3 m p) = m := by
  unfold minorNatOf
  rw [splitOnChar_fstr3]
  exact pyIntVal_natDigits m

theorem patchNatOf_fstr3 (m p : Nat) : patchNatOf (fstr3 m p) = p := by
  unfold patchNatOf
  rw [splitOnChar_fstr3]
  exact pyIntVal_natDigits p

/-! ### Membership in a strictly descending prefix -/

theorem take_mem_strict : ∀ (S : List Nat),
    List.Pairwise (fun a b => b < a) S →
    ∀ (count x : Nat),
      (x ∈ S.take count ↔
        x ∈ S ∧ (S.filter (fun y => decide (x < y))).length < count)
  | [], _, count, x => by simp
  | a :: T, hS, 0, x => by simp
  | a :: T, hS, count + 1, x => by
    obtain ⟨h1, h2⟩ := List.pairwise_cons.mp hS
    rw [List.take_succ_cons]
    by_cases hxa : x = a
    · subst hxa
      have hfil : T.filter (fun y => decide (x < y)) = [] :=
        List.filter_eq_nil_iff.mpr (fun y hy => by
          have := h1 y hy
          simp
          omega)
      simp [List.filter_cons, hfil]
    · have hKey := take_mem_strict T h2 count x
      constructor
      · intro hx
        have hxT : x ∈ T.take count := by
          rcases List.mem_cons.mp hx with h | h
          · exact absurd h hxa
          · exact h
        obtain ⟨hxT', hcnt⟩ := hKey.mp hxT
        have hxa' : x < a := h1 x hxT'
        refine ⟨List.mem_cons_of_mem _ hxT', ?_⟩
        rw [List.filter_cons, if_pos (by simp [hxa'])]
        simpa using hcnt
      · rintro ⟨hx, hcnt⟩
        have hxT : x ∈ T := by
          rcases List.mem_cons.mp hx with h | h
          · exact absurd h hxa
          · exact h
        have hxa' : x < a := h1 x hxT
        rw [List.filter_cons, if_pos (by simp [hxa'])] at hcnt
        apply List.mem_cons_of_mem
        exact hKey.mpr ⟨hxT, by simpa using hcnt⟩

/-! ### Line-level view of the input -/

theorem splitOnChar_joinLines : ∀ {ls : List PyStr},
    (∀ l ∈ ls, '\n' ∉ l) → ls ≠ [] →
    splitOnChar '\n' (joinLines ls) = ls
  | [], _, hne => absurd rfl hne
  | [l], h, _ => by
    rw [joinLines, splitOnChar_of_not_mem (h l (List.mem_cons_self _ _))]
  | l :: l2 :: ls, h, _ => by
    rw [joinLines, splitOnChar_append _ (h l (List.mem_cons_self _ _)),
      splitOnChar_joinLines (fun x hx => h x (List.mem_cons_of_mem _ hx)) (by simp)]

theorem parse_joinLines {ls : List PyStr} (h : ∀ l ∈ ls, '\n' ∉ l) :
    parse_asdf_output (joinLines ls) = ls.filterMap candOf := by
  cases ls with
  | nil => rfl
  | cons l ls' =>
    unfold parse_asdf_output
    rw [splitOnChar_joinLines h (by simp)]

theorem validVersions_joinLines {ls : List PyStr} (h : ∀ l ∈ ls, '\n' ∉ l) :
    validVersions (joinLines ls) = ls.filterMap lineVersion := by
  unfold validVersions
  rw [parse_joinLines h, List.filter_filterMap]
  rfl

theorem eligiblePairs_joinLines {ls : List PyStr} (h : ∀ l ∈ ls, '\n' ∉ l) :
    eligiblePairs (joinLines ls) = ls.filterMap linePair := by
  unfold eligiblePairs linePair
  rw [validVersions_joinLines h, List.map_filterMap]

/-! ### Shape of the selection result -/

/-- The distinct minors among the eligible versions of the input. -/
def eligMinors (output : PyStr) : List Nat :=
  ((eligiblePairs output).map Prod.fst).dedup

theorem pyIsDigit_iff {c : Char} : pyIsDigit c = true ↔ '0' ≤ c ∧ c ≤ '9' := by
  simp [pyIsDigit]

theorem natDigits_zero_or {n : Nat} (h : (natDigits n).head? = some '0') :
    natDigits n = ['0'] := by
  by_cases hn : n = 0
  · subst hn; rfl
  · exact absurd h (natDigits_head_ne_zero (by omega))

theorem pipeline_eq_of_pairs {o1 o2 : PyStr} (count : Nat)
    (h : eligiblePairs o1 = eligiblePairs o2) :
    pipeline o1 count = pipeline o2 count := by
  unfold pipeline
  rw [h]

theorem pipeline_mem {output : PyStr} {count : Nat} (hc : 0 < count) {s : PyStr} :
    s ∈ pipeline output count ↔
      ∃ m ∈ (dedupAdj ((List.insertionSort pairGe
          (eligiblePairs output)).map Prod.fst)).take count,
        s = fstr3 m (maxPatch (List.insertionSort pairGe (eligiblePairs output)) m) := by
  unfold pipeline
  dsimp only
  rw [collectMinors_take hc, List.mem_insertionSort, List.mem_map]
  constructor
  · rintro ⟨m, hm, heq⟩
    exact ⟨m, hm, heq.symm⟩
  · rintro ⟨m, hm, heq⟩
    exact ⟨m, hm, heq.symm⟩

theorem pipeline_minors_perm {output : PyStr} {count : Nat} (hc : 0 < count) :
    List.Perm ((pipeline output count).map minorNatOf)
      ((dedupAdj ((List.insertionSort pairGe
        (eligiblePairs output)).map Prod.fst)).take count) := by
  unfold pipeline
  dsimp only
  rw [collectMinors_take hc]
  have hperm := (List.perm_insertionSort strDescR
    (((dedupAdj ((List.insertionSort pairGe
      (eligiblePairs output)).map Prod.fst)).take count).map
      (fun minor => fstr3 minor
        (maxPatch (List.insertionSort pairGe (eligiblePairs output)) minor)))).map minorNatOf
  refine hperm.trans ?_
  rw [List.map_map]
  have : ∀ m ∈ (dedupAdj ((List.insertionSort pairGe
      (eligiblePairs output)).map Prod.fst)).take count,
      (minorNatOf ∘ fun minor => fstr3 minor
        (maxPatch (List.insertionSort pairGe (eligiblePairs output)) minor)) m = m :=
    fun m _ => minorNatOf_fstr3 m _
  rw [List.map_congr_left this]
  simp

theorem dedupAdj_sorted_fst (output : PyStr) :
    List.Pairwise (fun a b => b < a)
      (dedupAdj ((List.insertionSort pairGe (eligiblePairs output)).map Prod.fst)) :=
  dedupAdj_sorted (List.Pairwise.map Prod.fst (fun _ _ hab => hab)
    (sorted_pairs_fst (eligiblePairs output)))

theorem mem_minorsAll {output : PyStr} {x : Nat} :
    x ∈ dedupAdj ((List.insertionSort pairGe (eligiblePairs output)).map Prod.fst) ↔
      x ∈ eligMinors output := by
  rw [dedupAdj_mem]
  unfold eligMinors
  rw [List.mem_dedup]
  simp only [List.mem_map, List.mem_insertionSort]

theorem minorsAll_length (output : PyStr) :
    (dedupAdj ((List.insertionSort pairGe (eligiblePairs output)).map Prod.fst)).length =
      (eligMinors output).length :=
  ((List.perm_ext_iff_of_nodup
    (dedupAdj_nodup (List.Pairwise.map Prod.fst (fun _ _ hab => hab)
      (sorted_pairs_fst (eligiblePairs output))))
    (List.nodup_dedup _)).mpr (fun x => mem_minorsAll)).length_eq

theorem minorsAll_filter_length (output : PyStr) (m : Nat) :
    ((dedupAdj ((List.insertionSort pairGe
      (eligiblePairs output)).map Prod.fst)).filter (fun y => decide (m < y))).length =
      ((eligMinors output).filter (fun y => decide (m < y))).length :=
  ((List.perm_ext_iff_of_nodup
    (List.Nodup.filter _ (dedupAdj_nodup (List.Pairwise.map Prod.fst (fun _ _ hab => hab)
      (sorted_pairs_fst (eligiblePairs output)))))
    (List.Nodup.filter _ (List.nodup_dedup _))).mpr
    (fun x => by
      simp only [List.mem_filter]
      exact and_congr_left (fun _ => mem_minorsAll))).length_eq

/-! ### The claims -/

/-- The claimed ordering, as a checkable predicate: each entry's minor, read
as an integer, strictly exceeds the next entry's. -/
def strictDescByMinor : List PyStr → Bool
  | [] => true
  | [_] => true
  | a :: b :: t => decide (minorNatOf b < minorNatOf a) && strictDescByMinor (b :: t)

/-- C1: the claim says the result is ordered strictly descending by numeric
minor.  The code sorts the assembled strings lexicographically
(`sorted(selected_versions, reverse=True)`), so on the listing containing
3.9.0 and 3.10.0 with count 2 it returns ["3.9.0", "3.10.0"]: the entry with
minor 9 precedes the entry with minor 10, violating the claimed numeric
ordering (and the script's own promise to list the most recent version
first). -/
theorem claim_C1_string_sort_not_numeric :
    get_latest_asdf_versions ("3.9.0\n3.10.0").data 2 =
      .ok [("3.9.0").data, ("3.10.0").data] ∧
    minorNatOf ("3.9.0").data = 9 ∧
    minorNatOf ("3.10.0").data = 10 ∧
    strictDescByMinor [("3.9.0").data, ("3.10.0").data] = false := by
  refine ⟨by decide, by decide, by decide, by decide⟩

/-- C3: `is_valid_version` returns true iff splitting on the dot yields
exactly three parts, each nonempty and consisting solely of decimal digit
characters; in particular `3.13` and `3.13.0rc1` are rejected. -/
theorem claim_C3_valid_version_iff :
    (∀ v : PyStr, is_valid_version v = true ↔
      ((splitOnChar '.' v).length = 3 ∧
        ∀ p ∈ splitOnChar '.' v, p ≠ [] ∧ ∀ c ∈ p, '0' ≤ c ∧ c ≤ '9')) ∧
    is_valid_version ("3.13").data = false ∧
    is_valid_version ("3.13.0rc1").data = false := by
  refine ⟨?_, by decide, by decide⟩
  intro v
  simp only [is_valid_version, Bool.and_eq_true, beq_iff_eq, List.all_eq_true,
    pyStrIsdigit, Bool.not_eq_true', List.isEmpty_eq_false, pyIsDigit,
    decide_eq_true_eq]

/-- C8: `parse_asdf_output` returns exactly the trimmed nonempty lines whose
first character is a digit, in their original relative order (it is a filter
of the line list), with no validation of version format beyond the leading
digit. -/
theorem claim_C8_candidate_lines (ls : List PyStr) (h : ∀ l ∈ ls, '\n' ∉ l) :
    parse_asdf_output (joinLines ls) =
      (ls.map pystrip).filter (fun s =>
        match s with
        | [] => false
        | c :: _ => pyIsDigit c) := by
  rw [parse_joinLines h]
  clear h
  induction ls with
  | nil => rfl
  | cons l t ih =>
    cases hc : pystrip l with
    | nil =>
      have hcand : candOf l = none := by unfold candOf; rw [hc]
      rw [List.filterMap_cons_none hcand, ih]
      simp only [List.map_cons, List.filter_cons, hc]
      simp
    | cons c cs =>
      by_cases hd : pyIsDigit c = true
      · have hcand : candOf l = some (c :: cs) := by
          unfold candOf; rw [hc]; simp [hd]
        rw [List.filterMap_cons_some hcand, ih]
        simp only [List.map_cons, List.filter_cons, hc]
        simp [hd]
      · have hcand : candOf l = none := by
          unfold candOf; rw [hc]; simp [hd]
        rw [List.filterMap_cons_none hcand, ih]
        simp only [List.map_cons, List.filter_cons, hc]
        simp [hd]

theorem claim_C8_witness :
    parse_asdf_output (joinLines [("  3.12.1 ").data, ("Available versions:").data,
        [], (" 1abc").data, ("2.7.18").data]) =
      (([("  3.12.1 ").data, ("Available versions:").data,
        [], (" 1abc").data, ("2.7.18").data]).map pystrip).filter (fun s =>
        match s with
        | [] => false
        | c :: _ => pyIsDigit c) :=
  claim_C8_candidate_lines _ (by decide)

/-- C9: when the input contains no eligible version at all — and in
particular on the completely empty input — the function returns the empty
sequence inside `.ok`, not an error. -/
theorem claim_C9_no_eligible_empty (output : PyStr) (count : Nat) (hc : 0 < count)
    (hnone : validVersions output = []) :
    get_latest_asdf_versions output count = .ok [] ∧
    get_latest_asdf_versions [] count = .ok [] := by
  have hpipe : ∀ o : PyStr, validVersions o = [] → pipeline o count = [] := by
    intro o ho
    have he : eligiblePairs o = [] := by unfold eligiblePairs; rw [ho]; rfl
    unfold pipeline
    rw [he]
    rfl
  constructor
  · rw [get_latest_eq_pipeline, hpipe output hnone]
  · rw [get_latest_eq_pipeline, hpipe [] rfl]

theorem claim_C9_witness :
    (0 : Nat) < 3 ∧
    validVersions ("Available:\n 2.7.18\n3.13.0rc1\nfoo").data = [] ∧
    get_latest_asdf_versions ("Available:\n 2.7.18\n3.13.0rc1\nfoo").data 3 = .ok [] ∧
    get_latest_asdf_versions [] 3 = .ok [] :=
  ⟨by decide, by decide,
    (claim_C9_no_eligible_empty ("Available:\n 2.7.18\n3.13.0rc1\nfoo").data 3
      (by decide) (by decide)).1,
    (claim_C9_no_eligible_empty ("Available:\n 2.7.18\n3.13.0rc1\nfoo").data 3
      (by decide) (by decide)).2⟩

/-- C2: for every input text and positive count the function returns
normally (`.ok` — the validity filter guards each `int` conversion and each
group maximum is taken over a nonempty group), and a malformed line — one
contributing no eligible version — can be inserted anywhere without changing
the result: malformed lines are excluded from consideration rather than
raising. -/
theorem claim_C2_no_raise_malformed_excluded (output : PyStr) (count : Nat)
    (hc : 0 < count) :
    (∃ res, get_latest_asdf_versions output count = .ok res) ∧
    (∀ (pre post : List PyStr) (l : PyStr),
      (∀ x ∈ pre ++ l :: post, '\n' ∉ x) →
      linePair l = none →
      get_latest_asdf_versions (joinLines (pre ++ l :: post)) count =
        get_latest_asdf_versions (joinLines (pre ++ post)) count) := by
  refine ⟨⟨pipeline output count, get_latest_eq_pipeline output count⟩, ?_⟩
  intro pre post l hnl hnone
  have hnl' : ∀ x ∈ pre ++ post, '\n' ∉ x := by
    intro x hx
    apply hnl x
    rcases List.mem_append.mp hx with h | h
    · exact List.mem_append_left _ h
    · exact List.mem_append_right _ (List.mem_cons_of_mem _ h)
  rw [get_latest_eq_pipeline, get_latest_eq_pipeline]
  refine congrArg Except.ok ?_
  apply pipeline_eq_of_pairs
  rw [eligiblePairs_joinLines hnl, eligiblePairs_joinLines hnl',
    List.filterMap_append, List.filterMap_append]
  congr 1
  exact List.filterMap_cons_none hnone

theorem claim_C2_witness :
    (∃ res, get_latest_asdf_versions ("  3.12.1\n3.13.0rc1").data 3 = .ok res) ∧
    get_latest_asdf_versions
        (joinLines [("3.12.1").data, ("3.13.0rc1").data, ("3.11.2").data]) 3 =
      get_latest_asdf_versions (joinLines [("3.12.1").data, ("3.11.2").data]) 3 :=
  ⟨(claim_C2_no_raise_malformed_excluded ("  3.12.1\n3.13.0rc1").data 3 (by decide)).1,
   (claim_C2_no_raise_malformed_excluded [] 3 (by decide)).2
     [("3.12.1").data] [("3.11.2").data] ("3.13.0rc1").data (by decide) (by decide)⟩

/-- C7: duplicate version lines do not affect the result: inserting (or
appending) another copy of a line already present in the text yields exactly
the same result sequence. -/
theorem claim_C7_duplicates_idempotent (pre post : List PyStr) (l : PyStr)
    (count : Nat) (hc : 0 < count)
    (hnl : ∀ x ∈ pre ++ l :: post, '\n' ∉ x)
    (hdup : l ∈ pre ∨ l ∈ post) :
    get_latest_asdf_versions (joinLines (pre ++ l :: post)) count =
      get_latest_asdf_versions (joinLines (pre ++ post)) count := by
  have hnl' : ∀ x ∈ pre ++ post, '\n' ∉ x := by
    intro x hx
    apply hnl x
    rcases List.mem_append.mp hx with h | h
    · exact List.mem_append_left _ h
    · exact List.mem_append_right _ (List.mem_cons_of_mem _ h)
  rw [get_latest_eq_pipeline, get_latest_eq_pipeline]
  refine congrArg Except.ok ?_
  apply pipeline_congr hc
  intro q
  rw [eligiblePairs_joinLines hnl, eligiblePairs_joinLines hnl',
    List.filterMap_append, List.filterMap_append]
  cases hlp : linePair l with
  | none => rw [List.filterMap_cons_none hlp]
  | some qq =>
    rw [List.filterMap_cons_some hlp]
    have hqq : qq ∈ pre.filterMap linePair ∨ qq ∈ post.filterMap linePair := by
      rcases hdup with hd | hd
      · exact .inl (List.mem_filterMap.mpr ⟨l, hd, hlp⟩)
      · exact .inr (List.mem_filterMap.mpr ⟨l, hd, hlp⟩)
    simp only [List.mem_append, List.mem_cons]
    constructor
    · rintro (h | h | h)
      · exact .inl h
      · subst h; exact hqq
      · exact .inr h
    · rintro (h | h)
      · exact .inl h
      · exact .inr (.inr h)

theorem claim_C7_witness :
    get_latest_asdf_versions
        (joinLines [("3.12.0").data, ("3.12.1").data, ("3.12.0").data]) 2 =
      get_latest_asdf_versions (joinLines [("3.12.0").data, ("3.12.1").data]) 2 :=
  claim_C7_duplicates_idempotent [("3.12.0").data, ("3.12.1").data] []
    (("3.12.0").data) 2 (by decide) (by decide) (by decide)

/-- C4: every returned entry carries, for its minor, exactly the maximum
patch among all eligible input versions sharing that minor: the patch is one
of the group's patches and bounds all of them.  (Stated via membership and
upper bound, the property is independent of input order.) -/
theorem claim_C4_max_patch (output : PyStr) (count : Nat) (hc : 0 < count)
    (res : List PyStr) (h : get_latest_asdf_versions output count = .ok res) :
    ∀ s ∈ res,
      patchNatOf s ∈ ((eligiblePairs output).filter
        (fun q => q.1 == minorNatOf s)).map (fun q => q.2) ∧
      ∀ p ∈ ((eligiblePairs output).filter
        (fun q => q.1 == minorNatOf s)).map (fun q => q.2), p ≤ patchNatOf s := by
  have hres : res = pipeline output count :=
    Except.ok.inj (h.symm.trans (get_latest_eq_pipeline output count))
  subst hres
  intro s hs
  obtain ⟨m, hm, rfl⟩ := (pipeline_mem hc).mp hs
  rw [minorNatOf_fstr3, patchNatOf_fstr3]
  have hgroup : ∃ q ∈ List.insertionSort pairGe (eligiblePairs output), q.1 = m := by
    have hmm : m ∈ (List.insertionSort pairGe (eligiblePairs output)).map Prod.fst :=
      (dedupAdj_mem _ m).mp (List.mem_of_mem_take hm)
    obtain ⟨q, hq, hqm⟩ := List.mem_map.mp hmm
    exact ⟨q, hq, hqm⟩
  obtain ⟨⟨q, hq, hqm, hqp⟩, hub⟩ := maxPatch_spec hgroup
  have hq' : q ∈ eligiblePairs output := by simpa using hq
  constructor
  · exact mem_patches.mpr ⟨q, hq', hqm, hqp⟩
  · intro p hp
    obtain ⟨q', hq2, hqm', hqp'⟩ := mem_patches.mp hp
    have hq2' : q' ∈ List.insertionSort pairGe (eligiblePairs output) := by simpa using hq2
    have := hub q' hq2' hqm'
    omega

theorem claim_C4_witness :
    patchNatOf ("3.10.2").data ∈ ((eligiblePairs ("3.10.1\n3.10.2").data).filter
      (fun q => q.1 == minorNatOf ("3.10.2").data)).map (fun q => q.2) ∧
    ∀ p ∈ ((eligiblePairs ("3.10.1\n3.10.2").data).filter
      (fun q => q.1 == minorNatOf ("3.10.2").data)).map (fun q => q.2),
      p ≤ patchNatOf ("3.10.2").data :=
  claim_C4_max_patch ("3.10.1\n3.10.2").data 1 (by decide)
    [("3.10.2").data] (by decide) (("3.10.2").data) (by decide)

/-- C5: the minors of the result are exactly the min(count, D) largest
distinct eligible minors (those with fewer than `count` larger eligible
minors), and the result length is min(count, D), where D is the number of
distinct eligible minors. -/
theorem claim_C5_top_count_minors (output : PyStr) (count : Nat) (hc : 0 < count)
    (res : List PyStr) (h : get_latest_asdf_versions output count = .ok res) :
    res.length = min count (eligMinors output).length ∧
    (∀ m : Nat, m ∈ res.map minorNatOf ↔
      (m ∈ eligMinors output ∧
        ((eligMinors output).filter (fun y => decide (m < y))).length < count)) := by
  have hres : res = pipeline output count :=
    Except.ok.inj (h.symm.trans (get_latest_eq_pipeline output count))
  subst hres
  have hperm := @pipeline_minors_perm output count hc
  constructor
  · have h1 : (pipeline output count).length =
        ((pipeline output count).map minorNatOf).length := (List.length_map _ _).symm
    rw [h1, hperm.length_eq, List.length_take, minorsAll_length]
  · intro m
    rw [hperm.mem_iff, take_mem_strict _ (dedupAdj_sorted_fst output) count m,
      mem_minorsAll, minorsAll_filter_length]

theorem claim_C5_witness :
    ([("3.11.0").data, ("3.10.1").data] : List PyStr).length =
      min 2 (eligMinors ("3.10.1\n3.11.0\n3.9.9").data).length ∧
    (∀ m : Nat, m ∈ ([("3.11.0").data, ("3.10.1").data] : List PyStr).map minorNatOf ↔
      (m ∈ eligMinors ("3.10.1\n3.11.0\n3.9.9").data ∧
        ((eligMinors ("3.10.1\n3.11.0\n3.9.9").data).filter
          (fun y => decide (m < y))).length < 2)) :=
  claim_C5_top_count_minors ("3.10.1\n3.11.0\n3.9.9").data 2 (by decide)
    [("3.11.0").data, ("3.10.1").data] (by decide)

/-- C6: every returned string has the shape 3.digits.digits (nonempty digit
runs), no two entries share a minor, and the length is at most `count`. -/
theorem claim_C6_output_contract (output : PyStr) (count : Nat) (hc : 0 < count)
    (res : List PyStr) (h : get_latest_asdf_versions output count = .ok res) :
    (∀ s ∈ res, ∃ a b : List Char,
      s = '3' :: '.' :: (a ++ '.' :: b) ∧ a ≠ [] ∧ b ≠ [] ∧
      (∀ c ∈ a, '0' ≤ c ∧ c ≤ '9') ∧ (∀ c ∈ b, '0' ≤ c ∧ c ≤ '9')) ∧
    (res.map minorNatOf).Nodup ∧
    res.length ≤ count := by
  have hres : res = pipeline output count :=
    Except.ok.inj (h.symm.trans (get_latest_eq_pipeline output count))
  subst hres
  have hperm := @pipeline_minors_perm output count hc
  refine ⟨?_, ?_, ?_⟩
  · intro s hs
    obtain ⟨m, hm, rfl⟩ := (pipeline_mem hc).mp hs
    refine ⟨natDigits m, natDigits _, rfl, natDigits_ne_nil m, natDigits_ne_nil _, ?_, ?_⟩
    · intro c hcm
      exact pyIsDigit_iff.mp (natDigits_all_digits m c hcm)
    · intro c hcm
      exact pyIsDigit_iff.mp (natDigits_all_digits _ c hcm)
  · exact hperm.nodup_iff.mpr
      (List.Nodup.sublist (List.take_sublist _ _)
        (dedupAdj_nodup (List.Pairwise.map Prod.fst (fun _ _ hab => hab)
          (sorted_pairs_fst (eligiblePairs output)))))
  · have h1 : (pipeline output count).length =
        ((pipeline output count).map minorNatOf).length := (List.length_map _ _).symm
    rw [h1, hperm.length_eq, List.length_take]
    exact Nat.min_le_left _ _

theorem claim_C6_witness :
    (∀ s ∈ [("3.12.1").data, ("3.11.7").data, ("3.10.14").data], ∃ a b : List Char,
      s = '3' :: '.' :: (a ++ '.' :: b) ∧ a ≠ [] ∧ b ≠ [] ∧
      (∀ c ∈ a, '0' ≤ c ∧ c ≤ '9') ∧ (∀ c ∈ b, '0' ≤ c ∧ c ≤ '9')) ∧
    (([("3.12.1").data, ("3.11.7").data, ("3.10.14").data] : List PyStr).map
      minorNatOf).Nodup ∧
    ([("3.12.1").data, ("3.11.7").data, ("3.10.14").data] : List PyStr).length ≤ 3 :=
  claim_C6_output_contract
    ("3.10.13\n3.10.14\n3.11.6\n3.11.7\n3.12.0\n3.12.1\n3.9.18").data 3 (by decide)
    [("3.12.1").data, ("3.11.7").data, ("3.10.14").data] (by decide)

/-- C10: result strings are reassembled from the parsed integers: each entry
splits as 3, minor, patch with no leading zeros in minor or patch; versions
differing only in leading zeros are grouped as the same (minor, patch); and a
returned string need not occur verbatim as a line of the input. -/
theorem claim_C10_reassembled (output : PyStr) (count : Nat) (hc : 0 < count)
    (res : List PyStr) (h : get_latest_asdf_versions output count = .ok res) :
    (∀ s ∈ res, ∃ a b : List Char,
      splitOnChar '.' s = [['3'], a, b] ∧
      (a.head? = some '0' → a = ['0']) ∧
      (b.head? = some '0' → b = ['0'])) ∧
    get_latest_asdf_versions ("3.9.1\n3.09.01\n").data 1 = .ok [("3.9.1").data] ∧
    get_latest_asdf_versions ("3.09.01").data 1 = .ok [("3.9.1").data] ∧
    ("3.9.1").data ∉ splitOnChar '\n' ("3.09.01").data := by
  have hres : res = pipeline output count :=
    Except.ok.inj (h.symm.trans (get_latest_eq_pipeline output count))
  subst hres
  refine ⟨?_, by decide, by decide, by decide⟩
  intro s hs
  obtain ⟨m, hm, rfl⟩ := (pipeline_mem hc).mp hs
  exact ⟨natDigits m, natDigits _, splitOnChar_fstr3 m _,
    fun hz => natDigits_zero_or hz, fun hz => natDigits_zero_or hz⟩

theorem claim_C10_witness :
    (∀ s ∈ [("3.10.2").data], ∃ a b : List Char,
      splitOnChar '.' s = [['3'], a, b] ∧
      (a.head? = some '0' → a = ['0']) ∧
      (b.head? = some '0' → b = ['0'])) ∧
    get_latest_asdf_versions ("3.9.1\n3.09.01\n").data 1 = .ok [("3.9.1").data] ∧
    get_latest_asdf_versions ("3.09.01").data 1 = .ok [("3.9.1").data] ∧
    ("3.9.1").data ∉ splitOnChar '\n' ("3.09.01").data :=
  claim_C10_reassembled ("3.010.2\n3.10.02").data 1 (by decide)
    [("3.10.2").data] (by decide)

end LatestPythons
